import Mathlib

/-!
Shallow embedding of `mmseg/models/losses/binary_cross_entropy_loss.py`
(histogram-weighted binary cross-entropy loss for semantic segmentation)
and proofs about it.

Modelling conventions:
* Tensors are flat row-major data lists together with a shape.
* Python float arithmetic is idealized as exact rational arithmetic,
  extended with a NaN element (`PF.nan`); the IEEE rules that matter on the
  reachable paths are kept: `0/0 = NaN` and `x * NaN = NaN` (in particular
  `0 * NaN = NaN`).  Division by zero only ever occurs with a zero numerator
  on the reachable paths (normalizing an all-zero histogram), so `PF.div`
  maps a zero divisor to NaN.
* The float literal `1e-6` is idealized as the exact rational `1/1000000`.
* Fallible tensor operations (index errors, broadcast errors, Python
  `assert`, attribute errors on `None`, ...) return `Except String`.
* The in-place mutation that the source performs on its arguments
  (`labels[labels != ignore_index] -= 1`, and the write-through of
  `bin_label_weights *= valid_mask` when the expanded view aliases the
  caller's weight tensor) is modelled by explicit state passing: the
  functions also return the final contents of the caller-visible tensors.
-/

namespace Mmseg

/-- Pseudo-float: exact rationals extended with a NaN element.  NaN is
absorbing for every arithmetic operation, matching IEEE 754 on the
operations the source uses. -/
inductive PF where
  | nan : PF
  | val : ℚ → PF
deriving DecidableEq

instance : Inhabited PF := ⟨PF.val 0⟩

def PF.add : PF → PF → PF
  | .val a, .val b => .val (a + b)
  | _, _ => .nan

def PF.sub : PF → PF → PF
  | .val a, .val b => .val (a - b)
  | _, _ => .nan

def PF.mul : PF → PF → PF
  | .val a, .val b => .val (a * b)
  | _, _ => .nan

/-- Division.  A zero divisor yields NaN: on every reachable path of the
source a zero divisor comes with a zero numerator (`0/0 = NaN` in IEEE),
so infinities never arise and need not be modelled. -/
def PF.div : PF → PF → PF
  | .val a, .val b => if b = 0 then .nan else .val (a / b)
  | _, _ => .nan

instance : Add PF := ⟨PF.add⟩
instance : Sub PF := ⟨PF.sub⟩
instance : Mul PF := ⟨PF.mul⟩
instance : Div PF := ⟨PF.div⟩

/-- A tensor: row-major flat data together with a shape. -/
structure Tensor (α : Type) where
  shape : List ℕ
  data : List α
deriving DecidableEq

def Tensor.dim (t : Tensor α) : ℕ := t.shape.length

def Tensor.numel (t : Tensor α) : ℕ := t.shape.prod

/-- Well-formedness: the flat data has exactly as many entries as the shape
prescribes. -/
def Tensor.wf (t : Tensor α) : Prop := t.data.length = t.shape.prod

/-- Multi-index of the `k`-th entry (row-major) of a tensor of the given
shape. -/
def unflatten : List ℕ → ℕ → List ℕ
  | [], _ => []
  | _ :: ds, k => k / ds.prod :: unflatten ds (k % ds.prod)

/-- Row-major flat index of a multi-index. -/
def flattenIdx : List ℕ → List ℕ → ℕ
  | [], _ => 0
  | _ :: ds, c :: cs => c * ds.prod + flattenIdx ds cs
  | _ :: _, [] => 0

def Tensor.get [Inhabited α] (t : Tensor α) (k : ℕ) : α := t.data.getD k default

/-- Entry of a tensor at a multi-index. -/
def Tensor.entry [Inhabited α] (t : Tensor α) (coords : List ℕ) : α :=
  t.get (flattenIdx t.shape coords)

/-- Componentwise broadcast of two equal-length shape lists. -/
def bshapes2 : List ℕ → List ℕ → Option (List ℕ)
  | [], [] => some []
  | a :: as, b :: bs =>
    match bshapes2 as bs with
    | none => none
    | some rest =>
      if a = b then some (a :: rest)
      else if a = 1 then some (b :: rest)
      else if b = 1 then some (a :: rest)
      else none
  | _, _ => none

def padOnes (s : List ℕ) (n : ℕ) : List ℕ := List.replicate (n - s.length) 1 ++ s

/-- Shape of the broadcast of two tensors (right-aligned, size-1 dimensions
stretch), `none` if the shapes are incompatible. -/
def broadcastShapes (a b : List ℕ) : Option (List ℕ) :=
  bshapes2 (padOnes a (max a.length b.length)) (padOnes b (max a.length b.length))

/-- Source coordinates corresponding to output coordinates when a tensor of
shape `srcShape` is broadcast: right-aligned, coordinate 0 on stretched
size-1 dimensions.  Extra leading source dimensions (necessarily of size 1
at call sites) get coordinate 0. -/
def srcCoords (srcShape : List ℕ) (outCoords : List ℕ) : List ℕ :=
  let oc := if srcShape.length ≤ outCoords.length then
    outCoords.drop (outCoords.length - srcShape.length)
  else
    List.replicate (srcShape.length - outCoords.length) 0 ++ outCoords
  (List.zip srcShape oc).map (fun p => if p.1 = 1 then 0 else p.2)

/-- Entry a broadcast tensor contributes at flat position `k` of the
broadcast output shape. -/
def Tensor.bget [Inhabited α] (t : Tensor α) (outShape : List ℕ) (k : ℕ) : α :=
  t.entry (srcCoords t.shape (unflatten outShape k))

/-- Elementwise product with broadcasting, as `torch` `*`. -/
def mulBroadcast (a b : Tensor PF) : Except String (Tensor PF) :=
  match broadcastShapes a.shape b.shape with
  | none => .error "RuntimeError: shapes not broadcastable"
  | some s => .ok ⟨s, (List.range s.prod).map (fun k => a.bget s k * b.bget s k)⟩

/-- Insert an element into a list at position `i`. -/
def insertAt (s : List ℕ) (i : ℕ) (x : ℕ) : List ℕ := s.take i ++ x :: s.drop i

/-- `torch.unsqueeze`: insert a size-1 dimension (callers check the bound). -/
def Tensor.unsqueeze (t : Tensor α) (d : ℕ) : Tensor α := ⟨insertAt t.shape d 1, t.data⟩

/-- Slice along dimension 0 (`t[i]`); the caller checks `i` is in bounds. -/
def Tensor.slice0 (t : Tensor α) (i : ℕ) : Tensor α :=
  ⟨t.shape.tail, (t.data.drop (i * t.shape.tail.prod)).take t.shape.tail.prod⟩

/-- `t[1:]` along dimension 0. -/
def Tensor.sliceFrom1 (t : Tensor α) : Tensor α :=
  ⟨(t.shape.headD 0 - 1) :: t.shape.tail, t.data.drop t.shape.tail.prod⟩

/-- `labels.float()`: cast an integer tensor to float (exact here). -/
def castPF (t : Tensor ℤ) : Tensor PF := ⟨t.shape, t.data.map (fun v => PF.val (v : ℚ))⟩

/-- `torch.expand` to a same-rank target shape: every dimension must match
the target or be 1. -/
def Tensor.expandTo [Inhabited α] (t : Tensor α) (target : List ℕ) :
    Except String (Tensor α) :=
  if t.shape.length = target.length ∧
      (List.zip t.shape target).all (fun p => p.1 == p.2 || p.1 == 1) then
    .ok ⟨target, (List.range target.prod).map (fun k => t.bget target k)⟩
  else
    .error "RuntimeError: expand size mismatch"

def listMinZ (v : ℤ) (vs : List ℤ) : ℤ := vs.foldl min v

def listMaxZ (v : ℤ) (vs : List ℤ) : ℤ := vs.foldl max v

/-- Bin of a value for `torch.histc` with integer edges `lo ≤ hi`:
values outside `[lo, hi]` are ignored, otherwise the bin is
`⌊(v - lo) * bins / (hi - lo)⌋` capped at `bins - 1`.  On every path of the
source the histogram edges are integers (either `0` and `num_classes - 1`,
or the minimum/maximum of an integer label tensor, possibly shifted by 1),
so the float bin computation is exactly integer floor division. -/
def histBin (lo hi : ℤ) (bins : ℕ) (v : ℤ) : Option ℕ :=
  if v < lo ∨ hi < v then none
  else some (min (((v - lo) * bins / (hi - lo)).toNat) (bins - 1))

/-- Histogram edge selection of `torch.histc`: the requested `[min, max]`
range, except that when `min = max` (here: when `bins = 1`, since the call
uses `min = 0, max = bins - 1`) the edges come from the data instead,
widened by one on each side if the data is constant; on empty data the
internal min/max reduction raises. -/
def histEdges (data : List ℤ) (mn mx : ℤ) : Except String (ℤ × ℤ) :=
  if mn = mx then
    match data with
    | [] => .error "RuntimeError: reduction over empty tensor"
    | v :: vs =>
      if listMinZ v vs = listMaxZ v vs then
        .ok (listMinZ v vs - 1, listMaxZ v vs + 1)
      else
        .ok (listMinZ v vs, listMaxZ v vs)
  else .ok (mn, mx)

/-- `torch.histc` on an integer-valued tensor: `bins` equal-width bins over
the selected edges; out-of-range values are ignored. -/
def histc (data : List ℤ) (bins : ℕ) (mn mx : ℤ) : Except String (List ℕ) :=
  if bins = 0 then .error "RuntimeError: bins must be positive"
  else
    match histEdges data mn mx with
    | .error e => .error e
    | .ok (lo, hi) =>
      .ok ((List.range bins).map
        (fun b => (data.filter (fun v => histBin lo hi bins v = some b)).length))

/-- Embedding of `calculate_weights` (source lines 9-17): histogram over the
class range, normalized to a distribution, then
`weights = (hist != 0) * upper_bound * X + 1` with
`X = 1 / (hist_norm + 1e-6)` when `norm` and `X = 1 - hist_norm` otherwise.
Note that when the histogram is everywhere zero, `hist.sum() = 0` and
`hist / hist.sum()` is `0/0 = NaN`, which survives the multiplication by
the zero presence indicator (`0 * NaN = NaN`). -/
def calculate_weights (label : Tensor ℤ) (num_classes : ℕ) (norm : Bool)
    (upper_bound : ℚ) : Except String (Tensor PF) :=
  match histc label.data num_classes 0 ((num_classes : ℤ) - 1) with
  | .error e => .error e
  | .ok hist =>
    let s : ℚ := ((hist.sum : ℕ) : ℚ)
    let weights : List PF := hist.map (fun (h : ℕ) =>
      let histNorm : PF := PF.div (.val (h : ℚ)) (.val s)
      let presence : PF := .val (if h ≠ 0 then 1 else 0)
      if norm then
        presence * .val upper_bound * (PF.val 1 / (histNorm + .val (1 / 1000000))) + .val 1
      else
        presence * .val upper_bound * (.val 1 - histNorm) + .val 1)
    .ok ⟨[num_classes], weights⟩

/-- Validity of a label value inside the expander:
`(labels >= 0) & (labels != ignore_index)`. -/
def validLab (ig : ℤ) (v : ℤ) : Bool := 0 ≤ v && v ≠ ig

/-- One-hot scatter `bin_labels[inds[0], labels[valid_mask], ...] = 1` of the
expander, written as a comprehension over the target positions; the source's
advanced-indexing assignment writes the same entries and raises the same
index error (torch validates every index of the assignment).  The source
branches on `labels.dim() == 3` (4 index tensors) versus the 1-D case
(2 index tensors); other rank combinations are unreachable from
`binary_cross_entropy` (its rank assertion admits only 1-D and 3-D labels). -/
def scatterOnehot (labels1 : Tensor ℤ) (ig : ℤ) (target : List ℕ) :
    Except String (Tensor ℤ) :=
  match labels1.shape, target with
  | [n, h, w], [tn, tc, th, tw] =>
    if (List.range labels1.numel).all (fun k =>
        match unflatten [n, h, w] k with
        | [a, c, d] =>
          !validLab ig (labels1.entry [a, c, d]) ||
            (a < tn && (labels1.entry [a, c, d]).toNat < tc && c < th && d < tw)
        | _ => true) then
      .ok ⟨target, (List.range target.prod).map (fun k =>
        match unflatten target k with
        | [a, b, c, d] =>
          if a < n ∧ c < h ∧ d < w ∧ validLab ig (labels1.entry [a, c, d]) ∧
              labels1.entry [a, c, d] = (b : ℤ) then 1 else 0
        | _ => 0)⟩
    else .error "IndexError: index out of bounds"
  | [n], [tn, tc] =>
    if (List.range labels1.numel).all (fun k =>
        !validLab ig (labels1.entry [k]) ||
          (k < tn && (labels1.entry [k]).toNat < tc)) then
      .ok ⟨target, (List.range target.prod).map (fun k =>
        match unflatten target k with
        | [a, b] =>
          if a < n ∧ validLab ig (labels1.entry [a]) ∧
              labels1.entry [a] = (b : ℤ) then 1 else 0
        | _ => 0)⟩
    else .error "IndexError: index out of bounds"
  | [_, _, _], _ => .error "IndexError: too many indices"
  | _, _ => .error "IndexError: unsupported indexing pattern"

/-- Embedding of `_expand_onehot_labels` (source lines 20-45).  Returns the
final contents of the caller's `labels` tensor (which the source mutates in
place when `include_zero` is false) together with the result of the call.
The weight branch reflects torch view semantics:
`label_weights.unsqueeze(1).expand(target_shape)` is a view, and the
in-place `*=` on it raises when the expansion actually stretched a
dimension (several elements of the written-to view alias one memory
location); when no dimension was stretched the view writes through to the
caller's weight tensor, whose final contents are also returned. -/
def _expand_onehot_labels (labels : Tensor ℤ) (label_weights : Option (Tensor PF))
    (target_shape : List ℕ) (ignore_index : ℤ) (include_zero : Bool) :
    Tensor ℤ × Except String (Tensor ℤ × Tensor PF × Option (Tensor PF)) :=
  let labels1 : Tensor ℤ :=
    if include_zero then labels
    else ⟨labels.shape, labels.data.map (fun v => if v ≠ ignore_index then v - 1 else v)⟩
  (labels1,
    match scatterOnehot labels1 ignore_index target_shape with
    | .error e => .error e
    | .ok bin_labels =>
      let vmU : Tensor PF :=
        ⟨insertAt labels1.shape 1 1,
          labels1.data.map (fun v => if validLab ignore_index v then PF.val 1 else PF.val 0)⟩
      match vmU.expandTo target_shape with
      | .error e => .error e
      | .ok valid_mask =>
        match label_weights with
        | none => .ok (bin_labels, valid_mask, none)
        | some w =>
          let u := insertAt w.shape 1 1
          if u.length = target_shape.length ∧
              (List.zip u target_shape).all (fun p => p.1 == p.2 || p.1 == 1) then
            if u = target_shape then
              .ok (bin_labels,
                ⟨target_shape, List.zipWith (· * ·) w.data valid_mask.data⟩,
                some ⟨w.shape, List.zipWith (· * ·) w.data valid_mask.data⟩)
            else
              .error "RuntimeError: in-place write to overlapping expanded tensor"
          else
            .error "RuntimeError: expand size mismatch")

/-- Embedding of `F.binary_cross_entropy_with_logits(input, target,
pos_weight=..., reduction='none')`.  The elementwise scalar function `f`
(the weighted log-sigmoid cross-entropy formula, a transcendental function
of prediction, target and positive-class weight) is kept abstract: no claim
depends on its values, only on shapes, error behaviour and which arguments
reach it.  Torch requires `target` to have exactly the input's shape and
broadcasts `pos_weight` against them; the output has the broadcast shape. -/
def binary_cross_entropy_with_logits (f : PF → PF → PF → PF)
    (input target pos_weight : Tensor PF) : Except String (Tensor PF) :=
  if input.shape = target.shape then
    match broadcastShapes input.shape pos_weight.shape with
    | none => .error "RuntimeError: shapes not broadcastable"
    | some out =>
      .ok ⟨out, (List.range out.prod).map (fun k =>
        f (input.bget out k) (target.bget out k) (pos_weight.bget out k))⟩
  else .error "ValueError: target size must be the same as input size"

/-- Broadcastability of a source shape onto an assignment destination
(`loss[i] = r`): right-aligned dimensions must match or be 1, extra leading
source dimensions must be 1. -/
def assignOk (src dest : List ℕ) : Bool :=
  if src.length ≤ dest.length then
    (List.zip src (dest.drop (dest.length - src.length))).all
      (fun p => p.1 == p.2 || p.1 == 1)
  else
    (src.take (src.length - dest.length)).all (fun x => x == 1) &&
      (List.zip (src.drop (src.length - dest.length)) dest).all
        (fun p => p.1 == p.2 || p.1 == 1)

/-- Modelled from the spec: the outbound collaborator `weight_reduce_loss`
(imported from `.utils`, whose source is not part of this repository
snapshot) takes elementwise losses, an optional weight tensor, a reduction
mode string and an optional averaging factor; it multiplies the losses by
the weights, then reduces by "none" (pass through), "sum", or "mean"
(dividing by the supplied averaging factor, or by the count of contributing
elements when none is supplied); an invalid reduction mode is fatal. -/
def weight_reduce_loss (loss : Tensor PF) (weight : Option (Tensor PF))
    (reduction : String) (avg_factor : Option ℚ) : Except String (Tensor PF) :=
  let step1 : Except String (Tensor PF) := match weight with
    | none => .ok loss
    | some w => mulBroadcast loss w
  match step1 with
  | .error e => .error e
  | .ok applied =>
    if reduction = "none" then .ok applied
    else if reduction = "sum" then
      .ok ⟨[], [applied.data.foldl (· + ·) (PF.val 0)]⟩
    else if reduction = "mean" then
      match avg_factor with
      | some a => .ok ⟨[], [applied.data.foldl (· + ·) (PF.val 0) / PF.val a]⟩
      | none =>
        let cnt : ℕ := match weight with
          | none => applied.numel
          | some w =>
            ((List.range applied.numel).filter
              (fun k => !(w.bget applied.shape k == PF.val 0))).length
        .ok ⟨[], [applied.data.foldl (· + ·) (PF.val 0) / PF.val (cnt : ℚ)]⟩
    else .error "ValueError: invalid reduction"

/-- Per-image branch of `binary_cross_entropy` (source lines 86-97):
`loss = torch.zeros_like(label).float()`, then for every `i` in
`range(pred.shape[0])`, per-sample class weights feed a per-sample
`binary_cross_entropy_with_logits` call whose result is assigned into
`loss[i]`. -/
def perImageLoss (f : PF → PF → PF → PF) (pred : Tensor PF) (label : Tensor ℤ)
    (img_based_class_weights : Option String) (include_zero : Bool) :
    Except String (Tensor PF) :=
  let stride := label.shape.tail.prod
  let step : List PF → ℕ → Except String (List PF) := fun acc i =>
    if i < label.shape.headD 0 then
      match pred.shape.get? 1 with
      | none => .error "IndexError: shape index out of range"
      | some c =>
        match calculate_weights (label.slice0 i) c
            (img_based_class_weights == some "norm") 1 with
        | .error e => .error e
        | .ok cw =>
          let cw2 := if include_zero then cw else cw.sliceFrom1
          if 1 ≤ cw2.dim then
            match binary_cross_entropy_with_logits f
                ((pred.slice0 i).unsqueeze 0)
                (castPF ((label.slice0 i).unsqueeze 0))
                (((cw2.unsqueeze 0).unsqueeze 2).unsqueeze 3) with
            | .error e => .error e
            | .ok r =>
              if assignOk r.shape label.shape.tail then
                .ok (acc.take (i * stride) ++
                  (List.range stride).map (fun k => r.bget label.shape.tail k) ++
                  acc.drop ((i + 1) * stride))
              else .error "RuntimeError: assignment shape mismatch"
          else .error "IndexError: unsqueeze dim out of range"
    else .error "IndexError: index out of range"
  match (List.range (pred.shape.headD 0)).foldlM step
      (List.replicate label.numel (PF.val 0)) with
  | .error e => .error e
  | .ok d => .ok ⟨label.shape, d⟩

/-- Body of `binary_cross_entropy` after the optional one-hot expansion
(source lines 82-117): the per-image histogram branch, or the batch branch
(optionally computing batch histogram weights, dropping the first weight if
the zero class is excluded — note `class_weight[1:]` and the unconditional
`class_weight.unsqueeze(0)` fail on `None`), followed by the weighted
reduction. -/
def bceCore (f : PF → PF → PF → PF) (pred : Tensor PF) (label : Tensor ℤ)
    (weight : Option (Tensor PF)) (img_based_class_weights : Option String)
    (batch_weights : Bool) (class_weight : Option (Tensor PF)) (reduction : String)
    (avg_factor : Option ℚ) (include_zero : Bool) : Except String (Tensor PF) :=
  let batchBranch : Except String (Tensor PF) :=
    let cw1E : Except String (Option (Tensor PF)) :=
      if class_weight = none ∧ img_based_class_weights ≠ none ∧
          batch_weights = true then
        match pred.shape.get? 1 with
        | none => .error "IndexError: shape index out of range"
        | some c =>
          match calculate_weights label c (img_based_class_weights == some "norm") 1 with
          | .error e => .error e
          | .ok cw => .ok (some cw)
      else .ok class_weight
    match cw1E with
    | .error e => .error e
    | .ok cw1 =>
      let cw2E : Except String (Option (Tensor PF)) :=
        if include_zero then .ok cw1
        else match cw1 with
          | none => .error "TypeError: NoneType is not subscriptable"
          | some t => .ok (some t.sliceFrom1)
      match cw2E with
      | .error e => .error e
      | .ok cw2 =>
        match cw2 with
        | none => .error "AttributeError: NoneType has no attribute unsqueeze"
        | some cwt =>
          if 1 ≤ cwt.dim then
            binary_cross_entropy_with_logits f pred (castPF label)
              (((cwt.unsqueeze 0).unsqueeze 2).unsqueeze 3)
          else .error "IndexError: unsqueeze dim out of range"
  let lossE : Except String (Tensor PF) :=
    if class_weight = none ∧ img_based_class_weights ≠ none ∧
        batch_weights = false then
      if 2 < pred.dim ∧ 1 < label.dim then
        perImageLoss f pred label img_based_class_weights include_zero
      else .error "AssertionError: per-image weights need pred dim above 2 and label dim above 1"
    else batchBranch
  match lossE with
  | .error e => .error e
  | .ok loss => weight_reduce_loss loss weight reduction avg_factor

/-- Observable outcome of a call to `binary_cross_entropy`: the returned
loss (or the exception), and the final contents of the caller's label and
weight tensors (the source can mutate both through the expander). -/
structure BCEResult where
  loss : Except String (Tensor PF)
  labelAfter : Tensor ℤ
  weightAfter : Option (Tensor PF)

/-- Embedding of `binary_cross_entropy` (source lines 49-120): when
prediction and label ranks differ, assert the two supported rank pairs and
run the one-hot expander (rebinding `label` and `weight` to its outputs),
then compute the loss via `bceCore`. -/
def binary_cross_entropy (f : PF → PF → PF → PF) (pred : Tensor PF)
    (label : Tensor ℤ) (weight : Option (Tensor PF))
    (img_based_class_weights : Option String) (batch_weights : Bool)
    (class_weight : Option (Tensor PF)) (reduction : String)
    (avg_factor : Option ℚ) (ignore_index : ℤ) (include_zero : Bool) : BCEResult :=
  if pred.dim ≠ label.dim then
    if (pred.dim = 2 ∧ label.dim = 1) ∨ (pred.dim = 4 ∧ label.dim = 3) then
      match _expand_onehot_labels label weight pred.shape ignore_index include_zero with
      | (lA, .error e) => ⟨.error e, lA, weight⟩
      | (lA, .ok (bin, binw, wA)) =>
        ⟨bceCore f pred bin (some binw) img_based_class_weights batch_weights
          class_weight reduction avg_factor include_zero, lA, wA⟩
    else
      ⟨.error "AssertionError: only pred shape [N, C] with label shape [N] or pred shape [N, C, H, W] with label shape [N, H, W] are supported",
        label, weight⟩
  else
    ⟨bceCore f pred label weight img_based_class_weights batch_weights
      class_weight reduction avg_factor include_zero, label, weight⟩

/-- Immutable configuration of the `BinaryCrossEntropyLoss` module
(source lines 123-156). -/
structure BinaryCrossEntropyLoss where
  include_zero : Bool
  img_based_class_weights : Option String
  batch_weights : Bool
  reduction : String
  class_weight : Option (List ℚ)
  loss_weight : ℚ
deriving DecidableEq

/-- `cls_score.new_tensor(self.class_weight)`: materialize the configured
class-weight list as a tensor with the prediction's numeric type. -/
def newTensor (l : List ℚ) : Tensor PF := ⟨[l.length], l.map PF.val⟩

/-- `self.loss_weight * loss`: scalar scaling of the loss tensor. -/
def scaleLoss (c : ℚ) (t : Tensor PF) : Tensor PF :=
  ⟨t.shape, t.data.map (fun x => PF.val c * x)⟩

/-- Embedding of `BinaryCrossEntropyLoss.forward` (source lines 157-184):
assert the reduction override is unset or one of none/mean/sum, pick the
override when supplied (they are all truthy strings) and the configured
reduction otherwise, materialize the fixed class weights if configured,
delegate to `binary_cross_entropy` with the default ignore index 255, and
scale the result by the configured loss weight. -/
def BinaryCrossEntropyLoss.forward (self : BinaryCrossEntropyLoss)
    (f : PF → PF → PF → PF) (cls_score : Tensor PF) (label : Tensor ℤ)
    (weight : Option (Tensor PF)) (avg_factor : Option ℚ)
    (reduction_override : Option String) : BCEResult :=
  if reduction_override = none ∨ reduction_override = some "none" ∨
      reduction_override = some "mean" ∨ reduction_override = some "sum" then
    let reduction := match reduction_override with
      | some s => s
      | none => self.reduction
    let class_weight : Option (Tensor PF) := match self.class_weight with
      | some l => some (newTensor l)
      | none => none
    let r := binary_cross_entropy f cls_score label weight
      self.img_based_class_weights self.batch_weights class_weight reduction
      avg_factor 255 self.include_zero
    ⟨r.loss.map (scaleLoss self.loss_weight), r.labelAfter, r.weightAfter⟩
  else ⟨.error "AssertionError: invalid reduction override", label, weight⟩

/-- Number of entries of a label tensor equal to class `c`. -/
def classCount (label : Tensor ℤ) (c : ℕ) : ℕ :=
  (label.data.filter (fun v => v == (c : ℤ))).length

/-- Number of entries of a label tensor lying in the class range `[0, C)`. -/
def validTotal (label : Tensor ℤ) (C : ℕ) : ℕ :=
  (label.data.filter (fun v => decide (0 ≤ v) && decide (v < (C : ℤ)))).length

/-!  Helper lemmas about row-major index arithmetic and list evaluation. -/

theorem unflatten_length (s : List ℕ) (k : ℕ) : (unflatten s k).length = s.length := by
  induction s generalizing k with
  | nil => rfl
  | cons d ds ih => simp [unflatten, ih]

theorem flattenIdx_lt {s c : List ℕ} (h : List.Forall₂ (· < ·) c s) :
    flattenIdx s c < s.prod := by
  induction h with
  | nil => simp [flattenIdx]
  | cons hcd _ ih =>
    rename_i x d cs ds _
    have hP : 0 < ds.prod := by omega
    calc flattenIdx (d :: ds) (x :: cs) = x * ds.prod + flattenIdx ds cs := rfl
    _ < x * ds.prod + ds.prod := by omega
    _ = (x + 1) * ds.prod := by ring
    _ ≤ d * ds.prod := Nat.mul_le_mul_right _ (by omega)
    _ = (d :: ds).prod := by simp

theorem unflatten_flattenIdx {s c : List ℕ} (h : List.Forall₂ (· < ·) c s) :
    unflatten s (flattenIdx s c) = c := by
  induction h with
  | nil => rfl
  | cons hcd htl ih =>
    rename_i x d cs ds
    have hlt : flattenIdx ds cs < ds.prod := flattenIdx_lt htl
    have hP : 0 < ds.prod := by omega
    show (x * ds.prod + flattenIdx ds cs) / ds.prod ::
      unflatten ds ((x * ds.prod + flattenIdx ds cs) % ds.prod) = x :: cs
    rw [Nat.mul_comm x ds.prod, Nat.mul_add_div hP, Nat.div_eq_of_lt hlt,
      Nat.mul_add_mod, Nat.mod_eq_of_lt hlt]
    simp [ih]

theorem unflatten_forall2 {s : List ℕ} {k : ℕ} (h : k < s.prod) :
    List.Forall₂ (· < ·) (unflatten s k) s := by
  induction s generalizing k with
  | nil => exact List.Forall₂.nil
  | cons d ds ih =>
    have hP : 0 < ds.prod := by
      rcases Nat.eq_zero_or_pos ds.prod with h0 | h0
      · simp [List.prod_cons, h0] at h
      · exact h0
    refine List.Forall₂.cons ?_ (ih (Nat.mod_lt _ hP))
    exact Nat.div_lt_of_lt_mul (by rw [Nat.mul_comm]; simpa [List.prod_cons] using h)

theorem flattenIdx_unflatten {s : List ℕ} {k : ℕ} (h : k < s.prod) :
    flattenIdx s (unflatten s k) = k := by
  induction s generalizing k with
  | nil =>
    have hk : k = 0 := by simpa using h
    subst hk; rfl
  | cons d ds ih =>
    have hP : 0 < ds.prod := by
      rcases Nat.eq_zero_or_pos ds.prod with h0 | h0
      · simp [List.prod_cons, h0] at h
      · exact h0
    show k / ds.prod * ds.prod + flattenIdx ds (unflatten ds (k % ds.prod)) = k
    rw [ih (Nat.mod_lt _ hP), Nat.mul_comm, Nat.div_add_mod]

theorem rangeMap_getD {α : Type} (n k : ℕ) (g : ℕ → α) (d : α) (h : k < n) :
    ((List.range n).map g).getD k d = g k := by
  rw [List.getD_eq_getElem?_getD, List.getElem?_map, List.getElem?_range h]
  rfl

theorem getD_map_lt {α β : Type} (f : α → β) (l : List α) (k : ℕ) (d1 : β) (d2 : α)
    (h : k < l.length) : (l.map f).getD k d1 = f (l.getD k d2) := by
  rw [List.getD_eq_getElem?_getD, List.getElem?_map,
    List.getD_eq_getElem?_getD, List.getElem?_eq_getElem h]
  rfl

theorem sum_onehot (C : ℕ) (P : Prop) [Decidable P] (v : ℤ) :
    (Finset.range C).sum (fun c => if P ∧ v = (c : ℤ) then (1 : ℤ) else 0) =
      if P ∧ 0 ≤ v ∧ v < (C : ℤ) then 1 else 0 := by
  by_cases hP : P
  · simp only [hP, true_and]
    by_cases hv : 0 ≤ v ∧ v < (C : ℤ)
    · rw [if_pos hv]
      have hmem : v.toNat ∈ Finset.range C := by
        rw [Finset.mem_range]; omega
      rw [Finset.sum_congr rfl (fun c _ => ?_),
        Finset.sum_ite_eq' (Finset.range C) v.toNat (fun _ => (1 : ℤ))]
      · rw [if_pos hmem]
      · exact if_congr (by omega) rfl rfl
    · rw [if_neg hv, Finset.sum_eq_zero]
      intro c hc
      rw [Finset.mem_range] at hc
      rw [if_neg (by omega)]
  · simp [hP]

theorem PF.val_mul (a b : ℚ) : PF.val a * PF.val b = PF.val (a * b) := rfl

theorem PF.val_add (a b : ℚ) : PF.val a + PF.val b = PF.val (a + b) := rfl

theorem PF.val_sub (a b : ℚ) : PF.val a - PF.val b = PF.val (a - b) := rfl

theorem PF.div_val (a b : ℚ) (h : b ≠ 0) : PF.div (PF.val a) (PF.val b) = PF.val (a / b) := by
  simp [PF.div, h]

theorem scatterOnehot_ok_shape {l : Tensor ℤ} {ig : ℤ} {target : List ℕ}
    {b : Tensor ℤ} (h : scatterOnehot l ig target = .ok b) : b.shape = target := by
  unfold scatterOnehot at h
  split at h
  · split at h
    · rw [← Except.ok.inj h]
    · exact absurd h (by simp)
  · split at h
    · rw [← Except.ok.inj h]
    · exact absurd h (by simp)
  · exact absurd h (by simp)
  · exact absurd h (by simp)

theorem expand_ok_scatter {labels : Tensor ℤ} {lw : Option (Tensor PF)}
    {target : List ℕ} {ig : ℤ} {inc : Bool} {lA bin : Tensor ℤ} {binw : Tensor PF}
    {wA : Option (Tensor PF)}
    (h : _expand_onehot_labels labels lw target ig inc = (lA, .ok (bin, binw, wA))) :
    scatterOnehot
      (if inc then labels
        else ⟨labels.shape, labels.data.map (fun v => if v ≠ ig then v - 1 else v)⟩)
      ig target = .ok bin := by
  have h2 := congrArg Prod.snd h
  simp only [_expand_onehot_labels] at h2
  rcases hs : scatterOnehot
      (if inc then labels
        else ⟨labels.shape, labels.data.map (fun v => if v ≠ ig then v - 1 else v)⟩)
      ig target with e | b
  · rw [hs] at h2; exact absurd h2 (by simp)
  · rw [hs] at h2
    rcases hv : Tensor.expandTo
        ⟨insertAt (if inc then labels
          else ⟨labels.shape, labels.data.map (fun v => if v ≠ ig then v - 1 else v)⟩).shape 1 1,
          (if inc then labels
            else ⟨labels.shape, labels.data.map (fun v => if v ≠ ig then v - 1 else v)⟩).data.map
            (fun v => if validLab ig v then PF.val 1 else PF.val 0)⟩ target with e' | vm
    · rw [hv] at h2; exact absurd h2 (by simp)
    · rw [hv] at h2
      cases lw with
      | none =>
        simp only [Except.ok.injEq, Prod.mk.injEq] at h2
        rw [h2.1]
      | some w =>
        simp only at h2
        split at h2
        · split at h2
          · simp only [Except.ok.injEq, Prod.mk.injEq] at h2
            rw [h2.1]
          · exact absurd h2 (by simp)
        · exact absurd h2 (by simp)

theorem expand_ok_shape {labels : Tensor ℤ} {lw : Option (Tensor PF)}
    {target : List ℕ} {ig : ℤ} {inc : Bool} {lA bin : Tensor ℤ} {binw : Tensor PF}
    {wA : Option (Tensor PF)}
    (h : _expand_onehot_labels labels lw target ig inc = (lA, .ok (bin, binw, wA))) :
    bin.shape = target :=
  scatterOnehot_ok_shape (expand_ok_scatter h)

theorem scatter_sum_dim1 (ld1 : List ℤ) (n C : ℕ) (ig : ℤ) (bin : Tensor ℤ)
    (hscat : scatterOnehot ⟨[n], ld1⟩ ig [n, C] = .ok bin)
    (i : ℕ) (hi : i < n) :
    (Finset.range C).sum (fun c => bin.entry [i, c]) =
      if validLab ig (ld1.getD i 0) = true ∧ ld1.getD i 0 < (C : ℤ) then 1 else 0 := by
  simp only [scatterOnehot] at hscat
  split at hscat
  · rename_i hok
    have hbin := Except.ok.inj hscat
    subst hbin
    have hstep : ∀ c ∈ Finset.range C,
        Tensor.entry ⟨[n, C], (List.range ([n, C] : List ℕ).prod).map (fun k =>
          match unflatten [n, C] k with
          | [a, b] =>
            if a < n ∧ validLab ig (Tensor.entry ⟨[n], ld1⟩ [a]) ∧
                Tensor.entry ⟨[n], ld1⟩ [a] = (b : ℤ) then 1 else 0
          | _ => 0)⟩ [i, c] =
          if (validLab ig (ld1.getD i 0) = true) ∧ ld1.getD i 0 = (c : ℤ) then (1 : ℤ) else 0 := by
      intro c hc
      rw [Finset.mem_range] at hc
      have hf2 : List.Forall₂ (· < ·) [i, c] [n, C] :=
        List.Forall₂.cons hi (List.Forall₂.cons hc List.Forall₂.nil)
      have hklt : flattenIdx [n, C] [i, c] < ([n, C] : List ℕ).prod := flattenIdx_lt hf2
      show (((List.range ([n, C] : List ℕ).prod).map _).getD
        (flattenIdx [n, C] [i, c]) default) = _
      rw [rangeMap_getD _ _ _ _ hklt, unflatten_flattenIdx hf2]
      have hentry : Tensor.entry ⟨[n], ld1⟩ [i] = ld1.getD i 0 := by
        show ld1.getD (flattenIdx [n] [i]) default = ld1.getD i 0
        have hfl1 : flattenIdx [n] [i] = i := by simp [flattenIdx]
        rw [hfl1]; rfl
      simp only [hentry, hi, true_and]
    rw [Finset.sum_congr rfl hstep, sum_onehot]
    refine if_congr ?_ rfl rfl
    constructor
    · rintro ⟨hv, _, hlt⟩; exact ⟨hv, hlt⟩
    · rintro ⟨hv, hlt⟩
      refine ⟨hv, ?_, hlt⟩
      simp only [validLab, Bool.and_eq_true, decide_eq_true_eq] at hv
      exact hv.1
  · exact absurd hscat (by simp)

theorem scatter_sum_dim3 (ld1 : List ℤ) (n h w C : ℕ) (ig : ℤ) (bin : Tensor ℤ)
    (hscat : scatterOnehot ⟨[n, h, w], ld1⟩ ig [n, C, h, w] = .ok bin)
    (i : ℕ) (hi : i < ([n, h, w] : List ℕ).prod) :
    (Finset.range C).sum (fun c => bin.entry (insertAt (unflatten [n, h, w] i) 1 c)) =
      if validLab ig (ld1.getD i 0) = true ∧ ld1.getD i 0 < (C : ℤ) then 1 else 0 := by
  obtain ⟨a, b, d, hu⟩ := List.length_eq_three.mp (unflatten_length [n, h, w] i)
  have hfa := unflatten_forall2 hi
  have hfl : flattenIdx [n, h, w] (unflatten [n, h, w] i) = i := flattenIdx_unflatten hi
  rw [hu] at hfa hfl ⊢
  rcases hfa with _ | ⟨ha, hfa1⟩
  rcases hfa1 with _ | ⟨hb, hfa2⟩
  rcases hfa2 with _ | ⟨hd, -⟩
  simp only [scatterOnehot] at hscat
  split at hscat
  · rename_i hok
    have hbin := Except.ok.inj hscat
    subst hbin
    have hstep : ∀ c ∈ Finset.range C,
        Tensor.entry ⟨[n, C, h, w], (List.range ([n, C, h, w] : List ℕ).prod).map (fun k =>
          match unflatten [n, C, h, w] k with
          | [a, b, c, d] =>
            if a < n ∧ c < h ∧ d < w ∧
                validLab ig (Tensor.entry ⟨[n, h, w], ld1⟩ [a, c, d]) ∧
                Tensor.entry ⟨[n, h, w], ld1⟩ [a, c, d] = (b : ℤ) then 1 else 0
          | _ => 0)⟩ (insertAt [a, b, d] 1 c) =
          if (validLab ig (ld1.getD i 0) = true) ∧ ld1.getD i 0 = (c : ℤ) then (1 : ℤ) else 0 := by
      intro c hc
      rw [Finset.mem_range] at hc
      have hins : insertAt [a, b, d] 1 c = [a, c, b, d] := by simp [insertAt]
      rw [hins]
      have hf2 : List.Forall₂ (· < ·) [a, c, b, d] [n, C, h, w] :=
        List.Forall₂.cons ha (List.Forall₂.cons hc (List.Forall₂.cons hb
          (List.Forall₂.cons hd List.Forall₂.nil)))
      have hklt : flattenIdx [n, C, h, w] [a, c, b, d] < ([n, C, h, w] : List ℕ).prod :=
        flattenIdx_lt hf2
      show (((List.range ([n, C, h, w] : List ℕ).prod).map _).getD
        (flattenIdx [n, C, h, w] [a, c, b, d]) default) = _
      rw [rangeMap_getD _ _ _ _ hklt, unflatten_flattenIdx hf2]
      have hentry : Tensor.entry ⟨[n, h, w], ld1⟩ [a, b, d] = ld1.getD i 0 := by
        show ld1.getD (flattenIdx [n, h, w] [a, b, d]) default = ld1.getD i 0
        rw [hfl]; rfl
      simp only [hentry, ha, hb, hd, true_and]
    rw [Finset.sum_congr rfl hstep, sum_onehot]
    refine if_congr ?_ rfl rfl
    constructor
    · rintro ⟨hv, _, hlt⟩; exact ⟨hv, hlt⟩
    · rintro ⟨hv, hlt⟩
      refine ⟨hv, ?_, hlt⟩
      simp only [validLab, Bool.and_eq_true, decide_eq_true_eq] at hv
      exact hv.1
  · exact absurd hscat (by simp)

theorem listSum_range (n : ℕ) (f : ℕ → ℕ) :
    ((List.range n).map f).sum = (Finset.range n).sum f := by
  induction n with
  | zero => simp
  | succ m ih => simp [List.range_succ, Finset.sum_range_succ, ih]

theorem sum_indicator_nat (C : ℕ) (v : ℤ) :
    (Finset.range C).sum (fun c => if v = (c : ℤ) then (1 : ℕ) else 0) =
      if 0 ≤ v ∧ v < (C : ℤ) then 1 else 0 := by
  by_cases hv : 0 ≤ v ∧ v < (C : ℤ)
  · rw [if_pos hv]
    have hmem : v.toNat ∈ Finset.range C := by rw [Finset.mem_range]; omega
    rw [Finset.sum_congr rfl (fun c _ => ?_),
      Finset.sum_ite_eq' (Finset.range C) v.toNat (fun _ => (1 : ℕ))]
    · rw [if_pos hmem]
    · exact if_congr (by omega) rfl rfl
  · rw [if_neg hv, Finset.sum_eq_zero]
    intro c hc
    rw [Finset.mem_range] at hc
    rw [if_neg (by omega)]

theorem sum_classCount (l : List ℤ) (C : ℕ) :
    ((List.range C).map (fun (c : ℕ) => (l.filter (fun v => v == (c : ℤ))).length)).sum =
      (l.filter (fun v => decide (0 ≤ v) && decide (v < (C : ℤ)))).length := by
  induction l with
  | nil => simp
  | cons v vs ih =>
    rw [List.filter_cons]
    have hstep : ((List.range C).map
        (fun (c : ℕ) => ((v :: vs).filter (fun x => x == (c : ℤ))).length)).sum =
        ((List.range C).map (fun (c : ℕ) => (vs.filter (fun x => x == (c : ℤ))).length +
          (if v = (c : ℤ) then 1 else 0))).sum := by
      congr 1
      refine List.map_congr_left (fun c _ => ?_)
      rw [List.filter_cons]
      by_cases hvc : v = (c : ℤ)
      · simp [hvc, Nat.add_comm]
      · simp [hvc]
    rw [hstep, listSum_range, Finset.sum_add_distrib, sum_indicator_nat, ← listSum_range, ih]
    by_cases hr : 0 ≤ v ∧ v < (C : ℤ)
    · rw [if_pos hr]
      have hb : (decide (0 ≤ v) && decide (v < (C : ℤ))) = true := by
        simp [hr.1, hr.2]
      rw [hb]
      simp
    · rw [if_neg hr]
      have hb : (decide (0 ≤ v) && decide (v < (C : ℤ))) = false := by
        rcases not_and_or.mp hr with h | h <;> simp [h]
      rw [hb]
      simp

theorem histBin_eq (C : ℕ) (hC : 2 ≤ C) (v : ℤ) :
    histBin 0 ((C : ℤ) - 1) C v =
      if 0 ≤ v ∧ v ≤ (C : ℤ) - 1 then some v.toNat else none := by
  unfold histBin
  by_cases hr : v < 0 ∨ (C : ℤ) - 1 < v
  · rw [if_pos hr, if_neg (by omega)]
  · rw [if_neg hr, if_pos (by omega)]
    congr 1
    have h0 : (0 ≤ v ∧ v ≤ (C : ℤ) - 1) := by omega
    simp only [sub_zero]
    by_cases htop : v = (C : ℤ) - 1
    · rw [htop]
      have hne : ((C : ℤ) - 1) ≠ 0 := by omega
      rw [Int.mul_ediv_cancel_left _ hne]
      omega
    · have hlt : v < (C : ℤ) - 1 := by omega
      have hne : ((C : ℤ) - 1) ≠ 0 := by omega
      have hsplit : v * (C : ℤ) = v + v * ((C : ℤ) - 1) := by ring
      rw [hsplit, Int.add_mul_ediv_right _ _ hne, Int.ediv_eq_zero_of_lt h0.1 hlt]
      omega

theorem histc_classCounts (l : List ℤ) (C : ℕ) (hC : 2 ≤ C) :
    histc l C 0 ((C : ℤ) - 1) =
      .ok ((List.range C).map
        (fun (c : ℕ) => (l.filter (fun v => v == (c : ℤ))).length)) := by
  unfold histc
  rw [if_neg (by omega)]
  have hedge : histEdges l 0 ((C : ℤ) - 1) = .ok (0, (C : ℤ) - 1) := by
    unfold histEdges
    rw [if_neg (by omega)]
  rw [hedge]
  show Except.ok ((List.range C).map
    (fun b => (l.filter (fun v => histBin 0 ((C : ℤ) - 1) C v = some b)).length)) = _
  congr 1
  refine List.map_congr_left (fun b hb => ?_)
  rw [List.mem_range] at hb
  congr 1
  refine List.filter_congr (fun v _ => ?_)
  rw [histBin_eq C hC v]
  by_cases hin : 0 ≤ v ∧ v ≤ (C : ℤ) - 1
  · rw [if_pos hin]
    by_cases hvb : v = (b : ℤ)
    · simp [hvb]
    · have hnb : ¬v.toNat = b := by omega
      simp [hnb, hvb]
  · rw [if_neg hin]
    have hnb : ¬v = (b : ℤ) := by omega
    simp [hnb]

theorem foldl_min_le_init (vs : List ℤ) (v : ℤ) : vs.foldl min v ≤ v := by
  induction vs generalizing v with
  | nil => exact le_refl v
  | cons u us ih => exact le_trans (ih (min v u)) (min_le_left v u)

theorem foldl_min_le (vs : List ℤ) (v x : ℤ) (h : x ∈ v :: vs) :
    vs.foldl min v ≤ x := by
  induction vs generalizing v with
  | nil =>
    rcases List.mem_singleton.mp h with rfl
    exact le_refl x
  | cons u us ih =>
    rcases List.mem_cons.mp h with rfl | h'
    · exact le_trans (foldl_min_le_init us (min x u)) (min_le_left x u)
    · rcases List.mem_cons.mp h' with rfl | h''
      · exact le_trans (foldl_min_le_init us (min v x)) (min_le_right v x)
      · exact ih (min v u) (List.mem_cons_of_mem _ h'')

theorem le_foldl_max_init (vs : List ℤ) (v : ℤ) : v ≤ vs.foldl max v := by
  induction vs generalizing v with
  | nil => exact le_refl v
  | cons u us ih => exact le_trans (le_max_left v u) (ih (max v u))

theorem le_foldl_max (vs : List ℤ) (v x : ℤ) (h : x ∈ v :: vs) :
    x ≤ vs.foldl max v := by
  induction vs generalizing v with
  | nil =>
    rcases List.mem_singleton.mp h with rfl
    exact le_refl x
  | cons u us ih =>
    rcases List.mem_cons.mp h with rfl | h'
    · exact le_trans (le_max_left x u) (le_foldl_max_init us (max x u))
    · rcases List.mem_cons.mp h' with rfl | h''
      · exact le_trans (le_max_right v x) (le_foldl_max_init us (max v x))
      · exact ih (max v u) (List.mem_cons_of_mem _ h'')

theorem histc_one (v : ℤ) (vs : List ℤ) :
    histc (v :: vs) 1 0 0 = .ok [(v :: vs).length] := by
  unfold histc
  rw [if_neg (by omega)]
  have hall : ∀ lo hi : ℤ, (∀ x ∈ v :: vs, lo ≤ x ∧ x ≤ hi) →
      ((v :: vs).filter (fun x => histBin lo hi 1 x = some 0)).length = (v :: vs).length := by
    intro lo hi hbound
    rw [List.filter_eq_self.mpr]
    intro a ha
    obtain ⟨h1, h2⟩ := hbound a ha
    simp only [histBin, decide_eq_true_eq]
    rw [if_neg (by omega)]
    simp
  by_cases hmm : listMinZ v vs = listMaxZ v vs
  · have hedge : histEdges (v :: vs) 0 0 = .ok (listMinZ v vs - 1, listMaxZ v vs + 1) := by
      unfold histEdges
      rw [if_pos rfl]
      show (if listMinZ v vs = listMaxZ v vs then
        (Except.ok (listMinZ v vs - 1, listMaxZ v vs + 1) : Except String (ℤ × ℤ))
        else .ok (listMinZ v vs, listMaxZ v vs)) = _
      rw [if_pos hmm]
    rw [hedge]
    simp only [List.range]
    show Except.ok [((v :: vs).filter
      (fun x => histBin (listMinZ v vs - 1) (listMaxZ v vs + 1) 1 x = some 0)).length] = _
    rw [hall (listMinZ v vs - 1) (listMaxZ v vs + 1) (fun x hx =>
      ⟨by have h := foldl_min_le vs v x hx; simp only [listMinZ]; omega,
        by have h := le_foldl_max vs v x hx; simp only [listMaxZ]; omega⟩)]
  · have hedge : histEdges (v :: vs) 0 0 = .ok (listMinZ v vs, listMaxZ v vs) := by
      unfold histEdges
      rw [if_pos rfl]
      show (if listMinZ v vs = listMaxZ v vs then
        (Except.ok (listMinZ v vs - 1, listMaxZ v vs + 1) : Except String (ℤ × ℤ))
        else .ok (listMinZ v vs, listMaxZ v vs)) = _
      rw [if_neg hmm]
    rw [hedge]
    show Except.ok [((v :: vs).filter
      (fun x => histBin (listMinZ v vs) (listMaxZ v vs) 1 x = some 0)).length] = _
    rw [hall (listMinZ v vs) (listMaxZ v vs)
      (fun x hx => ⟨foldl_min_le vs v x hx, le_foldl_max vs v x hx⟩)]

theorem weight_entry (h T : ℕ) (norm : Bool) (ub : ℚ) (hub : 0 ≤ ub)
    (hT : T ≠ 0) (hle : h ≤ T) :
    ∃ q : ℚ,
      (if norm then
        PF.val (if h ≠ 0 then 1 else 0) * PF.val ub *
          (PF.val 1 / (PF.div (PF.val (h : ℚ)) (PF.val (T : ℚ)) + PF.val (1 / 1000000))) +
          PF.val 1
      else
        PF.val (if h ≠ 0 then 1 else 0) * PF.val ub *
          (PF.val 1 - PF.div (PF.val (h : ℚ)) (PF.val (T : ℚ))) + PF.val 1) = PF.val q ∧
      1 ≤ q ∧
      (h = 0 → q = 1) ∧
      (h ≠ 0 → q = if norm then ub * (1 / ((h : ℚ) / (T : ℚ) + 1 / 1000000)) + 1
        else ub * (1 - (h : ℚ) / (T : ℚ)) + 1) := by
  have hTQ : ((T : ℕ) : ℚ) ≠ 0 := Nat.cast_ne_zero.mpr hT
  have hTpos : (0 : ℚ) < (T : ℚ) := by
    have := Nat.pos_of_ne_zero hT
    exact_mod_cast this
  have hdiv : PF.div (PF.val (h : ℚ)) (PF.val (T : ℚ)) = PF.val ((h : ℚ) / (T : ℚ)) :=
    PF.div_val _ _ hTQ
  have hx0 : 0 ≤ (h : ℚ) / (T : ℚ) := div_nonneg (Nat.cast_nonneg h) (Nat.cast_nonneg T)
  have hx1 : (h : ℚ) / (T : ℚ) ≤ 1 := by
    rw [div_le_one hTpos]
    exact_mod_cast hle
  cases norm with
  | true =>
    have hdpos : (0 : ℚ) < (h : ℚ) / (T : ℚ) + 1 / 1000000 := by linarith
    have hden : (h : ℚ) / (T : ℚ) + 1 / 1000000 ≠ 0 := ne_of_gt hdpos
    refine ⟨(if h ≠ 0 then (1 : ℚ) else 0) * ub * (1 / ((h : ℚ) / (T : ℚ) + 1 / 1000000)) + 1,
      ?_, ?_, ?_, ?_⟩
    · rw [if_pos rfl, hdiv, PF.val_add]
      have hd2 : PF.val 1 / PF.val ((h : ℚ) / (T : ℚ) + 1 / 1000000) =
          PF.val (1 / ((h : ℚ) / (T : ℚ) + 1 / 1000000)) := by
        show PF.div _ _ = _
        exact PF.div_val _ _ hden
      rw [hd2, PF.val_mul, PF.val_mul, PF.val_add]
    · by_cases hh0 : h = 0
      · simp [hh0]
      · have hinv : 0 < 1 / ((h : ℚ) / (T : ℚ) + 1 / 1000000) := by positivity
        have : 0 ≤ ub * (1 / ((h : ℚ) / (T : ℚ) + 1 / 1000000)) :=
          mul_nonneg hub (le_of_lt hinv)
        simp only [hh0, if_pos, ne_eq, not_false_iff, if_true]
        nlinarith
    · intro hh0
      simp [hh0]
    · intro hh0
      rw [if_pos rfl]
      simp only [hh0, ne_eq, not_false_iff, if_true]
      ring
  | false =>
    refine ⟨(if h ≠ 0 then (1 : ℚ) else 0) * ub * (1 - (h : ℚ) / (T : ℚ)) + 1, ?_, ?_, ?_, ?_⟩
    · rw [if_neg Bool.false_ne_true, hdiv, PF.val_sub, PF.val_mul, PF.val_mul, PF.val_add]
    · by_cases hh0 : h = 0
      · simp [hh0]
      · have : 0 ≤ ub * (1 - (h : ℚ) / (T : ℚ)) := mul_nonneg hub (by linarith)
        simp only [hh0, ne_eq, not_false_iff, if_true]
        nlinarith
    · intro hh0
      simp [hh0]
    · intro hh0
      rw [if_neg Bool.false_ne_true]
      simp only [hh0, ne_eq, not_false_iff, if_true]
      ring

theorem classCount_le_validTotal (l : List ℤ) (c C : ℕ) (hc : c < C) :
    (l.filter (fun v => v == (c : ℤ))).length ≤
      (l.filter (fun v => decide (0 ≤ v) && decide (v < (C : ℤ)))).length := by
  rw [← List.countP_eq_length_filter, ← List.countP_eq_length_filter]
  refine List.countP_mono_left (fun a _ hpa => ?_)
  have ha : a = (c : ℤ) := by
    simpa using hpa
  subst ha
  simp
  omega

/-!  Claim theorems. -/

/-- C2 amended: when prediction and label ranks differ (in a supported
pair) and the one-hot expansion succeeds, the whole remaining computation —
including the histogram class-weight calculation in both batch and
per-image modes — operates on the expander's outputs: the returned loss
equals that of a rank-matched call made directly on the expanded binary
labels and expanded weights.  In particular the histogram calculator
receives the expanded binary-label tensor, not the original
class-index-valued label tensor. -/
theorem claim_C2_amended (f : PF → PF → PF → PF) (pred : Tensor PF)
    (label : Tensor ℤ) (weight : Option (Tensor PF)) (img : Option String)
    (batch : Bool) (cw : Option (Tensor PF)) (red : String) (af : Option ℚ)
    (ig : ℤ) (inc : Bool)
    (hne : pred.dim ≠ label.dim)
    (hsup : (pred.dim = 2 ∧ label.dim = 1) ∨ (pred.dim = 4 ∧ label.dim = 3))
    (lA bin : Tensor ℤ) (binw : Tensor PF) (wA : Option (Tensor PF))
    (hexp : _expand_onehot_labels label weight pred.shape ig inc =
      (lA, .ok (bin, binw, wA))) :
    (binary_cross_entropy f pred label weight img batch cw red af ig inc).loss =
      (binary_cross_entropy f pred bin (some binw) img batch cw red af ig inc).loss := by
  have hbs : bin.shape = pred.shape := expand_ok_shape hexp
  have hbd : ¬pred.dim ≠ bin.dim := by
    simp [Tensor.dim, hbs]
  unfold binary_cross_entropy
  rw [if_pos hne, if_pos hsup, hexp, if_neg hbd]

/-- C2 counterexample: rank-mismatched input, class-index label tensor
holding the single value 1 with two classes.  The expander produces the
binary tensor [0, 1]; batch-mode histogram weights computed from that
expanded tensor are [3/2, 3/2], while weights computed from the
class-index label tensor itself are [1, 1] — so the weights the code hands
to the histogram calculator are not those of the class-index labels. -/
theorem claim_C2_counterexample :
    (_expand_onehot_labels ⟨[1, 1, 1], [1]⟩ none [1, 2, 1, 1] 255 true =
      ((⟨[1, 1, 1], [1]⟩ : Tensor ℤ),
        .ok ((⟨[1, 2, 1, 1], [0, 1]⟩ : Tensor ℤ),
          (⟨[1, 2, 1, 1], [PF.val 1, PF.val 1]⟩ : Tensor PF), none))) ∧
    calculate_weights ⟨[1, 2, 1, 1], [0, 1]⟩ 2 false 1 ≠
      calculate_weights ⟨[1, 1, 1], [1]⟩ 2 false 1 := by
  refine ⟨rfl, ?_⟩
  have h1 : calculate_weights ⟨[1, 2, 1, 1], [0, 1]⟩ 2 false 1 =
      .ok ⟨[2], [PF.val (3 / 2), PF.val (3 / 2)]⟩ := by
    have hh : histc [0, 1] 2 0 1 = .ok [1, 1] := rfl
    norm_num [calculate_weights, hh, PF.val_mul, PF.val_add, PF.val_sub, PF.div_val]
  have h2 : calculate_weights ⟨[1, 1, 1], [1]⟩ 2 false 1 =
      .ok ⟨[2], [PF.val 1, PF.val 1]⟩ := by
    have hh : histc [1] 2 0 1 = .ok [0, 1] := rfl
    norm_num [calculate_weights, hh, PF.val_mul, PF.val_add, PF.val_sub, PF.div_val]
  rw [h1, h2]
  intro h
  have hmk := (Tensor.mk.injEq _ _ _ _).mp (Except.ok.inj h)
  have hdata := hmk.2
  injection hdata with ha _
  injection ha with ha'
  norm_num at ha'

/-- C2 witness: concrete instantiation of the amended theorem — a
(1,2,1,1) prediction with a (1,1,1) label in batch histogram mode gives the
same loss as the rank-matched call on the expander's outputs. -/
theorem claim_C2_witness :
    (_expand_onehot_labels ⟨[1, 1, 1], [1]⟩ none [1, 2, 1, 1] 255 true =
      ((⟨[1, 1, 1], [1]⟩ : Tensor ℤ),
        .ok ((⟨[1, 2, 1, 1], [0, 1]⟩ : Tensor ℤ),
          (⟨[1, 2, 1, 1], [PF.val 1, PF.val 1]⟩ : Tensor PF), none))) ∧
    (binary_cross_entropy (fun _ _ _ => PF.val 0) ⟨[1, 2, 1, 1], [PF.val 0, PF.val 0]⟩
        ⟨[1, 1, 1], [1]⟩ none (some "no_norm") true none "mean" none 255 true).loss =
      (binary_cross_entropy (fun _ _ _ => PF.val 0) ⟨[1, 2, 1, 1], [PF.val 0, PF.val 0]⟩
        ⟨[1, 2, 1, 1], [0, 1]⟩ (some ⟨[1, 2, 1, 1], [PF.val 1, PF.val 1]⟩)
        (some "no_norm") true none "mean" none 255 true).loss :=
  ⟨rfl, claim_C2_amended (fun _ _ _ => PF.val 0) ⟨[1, 2, 1, 1], [PF.val 0, PF.val 0]⟩
    ⟨[1, 1, 1], [1]⟩ none (some "no_norm") true none "mean" none 255 true
    (by decide) (by decide) ⟨[1, 1, 1], [1]⟩ ⟨[1, 2, 1, 1], [0, 1]⟩
    ⟨[1, 2, 1, 1], [PF.val 1, PF.val 1]⟩ none rfl⟩

/-- C7: if prediction and label ranks differ in any combination other than
(2, 1) or (4, 3), `binary_cross_entropy` fails immediately with the shape
assertion error: the loss is the assertion failure and the caller's label
and weight tensors are returned untouched (the expander never runs). -/
theorem claim_C7_rank_assertion (f : PF → PF → PF → PF) (pred : Tensor PF)
    (label : Tensor ℤ) (weight : Option (Tensor PF)) (img : Option String)
    (batch : Bool) (cw : Option (Tensor PF)) (red : String) (af : Option ℚ)
    (ig : ℤ) (inc : Bool)
    (hne : pred.dim ≠ label.dim)
    (hns : ¬((pred.dim = 2 ∧ label.dim = 1) ∨ (pred.dim = 4 ∧ label.dim = 3))) :
    binary_cross_entropy f pred label weight img batch cw red af ig inc =
      ⟨.error "AssertionError: only pred shape [N, C] with label shape [N] or pred shape [N, C, H, W] with label shape [N, H, W] are supported",
        label, weight⟩ := by
  unfold binary_cross_entropy
  rw [if_pos hne, if_neg hns]

/-- C7 witness: a rank-3 prediction with a rank-2 label is rejected with the
shape assertion. -/
theorem claim_C7_witness :
    ((⟨[1, 1, 1], [PF.val 0]⟩ : Tensor PF).dim ≠ (⟨[1, 1], [0]⟩ : Tensor ℤ).dim) ∧
    ¬(((⟨[1, 1, 1], [PF.val 0]⟩ : Tensor PF).dim = 2 ∧ (⟨[1, 1], [0]⟩ : Tensor ℤ).dim = 1) ∨
      ((⟨[1, 1, 1], [PF.val 0]⟩ : Tensor PF).dim = 4 ∧ (⟨[1, 1], [0]⟩ : Tensor ℤ).dim = 3)) ∧
    binary_cross_entropy (fun _ _ _ => PF.val 0) ⟨[1, 1, 1], [PF.val 0]⟩ ⟨[1, 1], [0]⟩
        none none true none "mean" none 255 true =
      ⟨.error "AssertionError: only pred shape [N, C] with label shape [N] or pred shape [N, C, H, W] with label shape [N, H, W] are supported",
        ⟨[1, 1], [0]⟩, none⟩ :=
  ⟨by decide, by decide,
    claim_C7_rank_assertion (fun _ _ _ => PF.val 0) ⟨[1, 1, 1], [PF.val 0]⟩
      ⟨[1, 1], [0]⟩ none none true none "mean" none 255 true (by decide) (by decide)⟩

/-- C1: the spec scenario — prediction of shape (2,3,4,4), label of shape
(2,4,4) with values in 0..2, ignore index 255, zero class included, no
histogram weighting and no fixed class-weight vector — does NOT return the
averaged sigmoid binary cross-entropy: the call raises, because the batch
branch unconditionally evaluates `class_weight.unsqueeze(0)` and
`class_weight` is `None` in this configuration. -/
theorem claim_C1_scenario_raises (f : PF → PF → PF → PF) :
    (binary_cross_entropy f ⟨[2, 3, 4, 4], List.replicate 96 (PF.val 0)⟩
        ⟨[2, 4, 4], (List.range 32).map (fun k => ((k % 3 : ℕ) : ℤ))⟩
        none none true none "mean" none 255 true).loss =
      .error "AttributeError: NoneType has no attribute unsqueeze" := rfl

/-- C4: a (1,1) prediction with a (1,) label in the default configuration
(no class-weight vector, no histogram mode) does not compute a loss: the
batch branch dereferences the absent class-weight vector and raises. -/
theorem claim_C4_default_2d_raises (f : PF → PF → PF → PF) :
    (binary_cross_entropy f ⟨[1, 1], [PF.val 0]⟩ ⟨[1], [0]⟩
        none none true none "mean" none 255 true).loss =
      .error "AttributeError: NoneType has no attribute unsqueeze" := rfl

/-- C3: `binary_cross_entropy` is not purely functional: with
`include_zero = false`, a (1,2) prediction, label (1,) holding the value 1
and a fixed class-weight vector, the call returns a loss, yet afterwards
the caller's label tensor holds 0 instead of 1 (the expander decremented it
in place). -/
theorem claim_C3_label_mutated (f : PF → PF → PF → PF) :
    (binary_cross_entropy f ⟨[1, 2], [PF.val 0, PF.val 0]⟩ ⟨[1], [1]⟩ none none true
        (some ⟨[2], [PF.val 5, PF.val 7]⟩) "mean" none 255 false).labelAfter =
      ⟨[1], [0]⟩ ∧
    ((⟨[1], [0]⟩ : Tensor ℤ) ≠ ⟨[1], [1]⟩) ∧
    ∃ t, (binary_cross_entropy f ⟨[1, 2], [PF.val 0, PF.val 0]⟩ ⟨[1], [1]⟩ none none true
        (some ⟨[2], [PF.val 5, PF.val 7]⟩) "mean" none 255 false).loss = .ok t :=
  ⟨rfl, by decide, ⟨_, rfl⟩⟩

/-- C10 counterexample: in per-image histogram mode with a (1,2) prediction
and a (1,) label holding the out-of-range value 5, the call fails with an
index error from the one-hot scatter, not with the per-image rank
assertion — so not every 2D/1D call in this mode fails with an assertion
error. -/
theorem claim_C10_counterexample :
    (binary_cross_entropy (fun _ _ _ => PF.val 0) ⟨[1, 2], [PF.val 0, PF.val 0]⟩
        ⟨[1], [5]⟩ none (some "no_norm") false none "mean" none 255 true).loss =
      .error "IndexError: index out of bounds" ∧
    "IndexError: index out of bounds" ≠
      "AssertionError: per-image weights need pred dim above 2 and label dim above 1" :=
  ⟨rfl, by decide⟩

/-- C10 amended: in per-image histogram mode (histogram weighting set,
per-image rather than batch, no fixed class-weight vector), every call with
a rank-2 prediction and rank-1 label fails — and whenever the one-hot
expansion itself succeeds, the failure is precisely the per-image rank
assertion (`assert pred.dim() > 2 and label.dim() > 1`), even though the
(2, 1) rank pair passes the general shape check.  (The expansion may fail
first, with a different error, on invalid label values or weight shapes.) -/
theorem claim_C10_amended (f : PF → PF → PF → PF) (pred : Tensor PF)
    (label : Tensor ℤ) (weight : Option (Tensor PF)) (img : Option String)
    (red : String) (af : Option ℚ) (ig : ℤ) (inc : Bool)
    (h2 : pred.dim = 2) (h1 : label.dim = 1) (himg : img ≠ none) :
    (∃ e, (binary_cross_entropy f pred label weight img false none red af ig inc).loss =
      .error e) ∧
    (∀ (lA bin : Tensor ℤ) (binw : Tensor PF) (wA : Option (Tensor PF)),
      _expand_onehot_labels label weight pred.shape ig inc = (lA, .ok (bin, binw, wA)) →
      (binary_cross_entropy f pred label weight img false none red af ig inc).loss =
        .error "AssertionError: per-image weights need pred dim above 2 and label dim above 1") := by
  have hne : pred.dim ≠ label.dim := by omega
  have hsup : (pred.dim = 2 ∧ label.dim = 1) ∨ (pred.dim = 4 ∧ label.dim = 3) :=
    Or.inl ⟨h2, h1⟩
  rcases hx : _expand_onehot_labels label weight pred.shape ig inc with ⟨lA0, r⟩
  cases r with
  | error e =>
    refine ⟨⟨e, ?_⟩, ?_⟩
    · unfold binary_cross_entropy
      rw [if_pos hne, if_pos hsup, hx]
    · intro lA bin binw wA hok
      exact absurd (congrArg Prod.snd hok) (by simp)
  | ok triple =>
    rcases triple with ⟨bin0, binw0, wA0⟩
    have hloss : (binary_cross_entropy f pred label weight img false none red af ig inc).loss =
        bceCore f pred bin0 (some binw0) img false none red af inc := by
      unfold binary_cross_entropy
      rw [if_pos hne, if_pos hsup, hx]
    have hcore : bceCore f pred bin0 (some binw0) img false none red af inc =
        .error "AssertionError: per-image weights need pred dim above 2 and label dim above 1" := by
      simp [bceCore, h2, himg]
    refine ⟨⟨_, hloss.trans hcore⟩, ?_⟩
    intro lA bin binw wA _
    exact hloss.trans hcore

/-- C10 witness: concrete per-image-mode call with a (1,2) prediction and a
valid (1,) label — it fails, and since the expansion succeeds it fails with
the per-image rank assertion. -/
theorem claim_C10_witness :
    ((⟨[1, 2], [PF.val 0, PF.val 0]⟩ : Tensor PF).dim = 2 ∧
      (⟨[1], [1]⟩ : Tensor ℤ).dim = 1 ∧ (some "no_norm" : Option String) ≠ none) ∧
    ((∃ e, (binary_cross_entropy (fun _ _ _ => PF.val 0) ⟨[1, 2], [PF.val 0, PF.val 0]⟩
        ⟨[1], [1]⟩ none (some "no_norm") false none "mean" none 255 true).loss = .error e) ∧
    (∀ (lA bin : Tensor ℤ) (binw : Tensor PF) (wA : Option (Tensor PF)),
      _expand_onehot_labels ⟨[1], [1]⟩ none
          (⟨[1, 2], [PF.val 0, PF.val 0]⟩ : Tensor PF).shape 255 true =
        (lA, .ok (bin, binw, wA)) →
      (binary_cross_entropy (fun _ _ _ => PF.val 0) ⟨[1, 2], [PF.val 0, PF.val 0]⟩
        ⟨[1], [1]⟩ none (some "no_norm") false none "mean" none 255 true).loss =
        .error "AssertionError: per-image weights need pred dim above 2 and label dim above 1")) :=
  ⟨⟨by decide, by decide, by decide⟩,
    claim_C10_amended (fun _ _ _ => PF.val 0) ⟨[1, 2], [PF.val 0, PF.val 0]⟩ ⟨[1], [1]⟩
      none (some "no_norm") "mean" none 255 true (by decide) (by decide) (by decide)⟩

/-- C9: `BinaryCrossEntropyLoss.forward` equals the loss-weight scaling of
the core `binary_cross_entropy` call, with the reduction override used when
supplied and the configured reduction otherwise, and with configured fixed
class weights materialized as a tensor; an override outside
none/mean/sum/unset fails the assertion. -/
theorem claim_C9_forward_delegates (f : PF → PF → PF → PF)
    (self : BinaryCrossEntropyLoss) (cls_score : Tensor PF) (label : Tensor ℤ)
    (weight : Option (Tensor PF)) (af : Option ℚ) (ro : Option String) :
    self.forward f cls_score label weight af ro =
      if ro = none ∨ ro = some "none" ∨ ro = some "mean" ∨ ro = some "sum" then
        let r := binary_cross_entropy f cls_score label weight
          self.img_based_class_weights self.batch_weights
          (Option.map newTensor self.class_weight) (ro.getD self.reduction) af 255
          self.include_zero
        ⟨r.loss.map (scaleLoss self.loss_weight), r.labelAfter, r.weightAfter⟩
      else ⟨.error "AssertionError: invalid reduction override", label, weight⟩ := by
  obtain ⟨inc, img, batch, red, cwl, lw⟩ := self
  cases ro <;> cases cwl <;> rfl

/-- C8: on a label tensor whose every value is the ignore index 255 (empty
valid-label set), `calculate_weights` does not return weight 1 for every
class: the histogram is all-zero, `hist / hist.sum()` is `0/0 = NaN`, and
the NaN survives the presence mask (`0 * NaN = NaN`), so every returned
weight is NaN. -/
theorem claim_C8_empty_labels_nan :
    calculate_weights ⟨[1], [255]⟩ 2 false 1 = .ok ⟨[2], [PF.nan, PF.nan]⟩ ∧
    (∀ q : ℚ, PF.nan ≠ PF.val q) :=
  ⟨rfl, fun _ h => PF.noConfusion h⟩

/-- C5 counterexample: for the label tensor [255, 255] (no value in the
class range) and three classes, every returned weight is NaN — in
particular the absent classes are not mapped to 1 and no entry is a
rational at least 1. -/
theorem claim_C5_counterexample :
    calculate_weights ⟨[2], [255, 255]⟩ 3 true 1 = .ok ⟨[3], [PF.nan, PF.nan, PF.nan]⟩ ∧
    ¬∃ q : ℚ, PF.nan = PF.val q ∧ 1 ≤ q :=
  ⟨rfl, fun ⟨_, h, _⟩ => PF.noConfusion h⟩

/-- C6 amended: for a label tensor (of either supported rank) with no
ignored positions, in-range class values, and — when the zero class is
excluded — no value equal to `ignore_index + 1`, the expanded binary-label
tensor summed over the class axis is 1 at every position, except positions
whose original label was 0 when the zero class is excluded, which sum
to 0. -/
theorem claim_C6_amended (labels : Tensor ℤ) (lw : Option (Tensor PF)) (ig : ℤ)
    (inc : Bool) (C : ℕ) (lA bin : Tensor ℤ) (binw : Tensor PF) (wA : Option (Tensor PF))
    (hwf : labels.wf)
    (hdim : labels.dim = 1 ∨ labels.dim = 3)
    (hexp : _expand_onehot_labels labels lw (insertAt labels.shape 1 C) ig inc =
      (lA, .ok (bin, binw, wA)))
    (hvals : ∀ v ∈ labels.data, 0 ≤ v ∧ v ≠ ig ∧
      (inc = true → v < (C : ℤ)) ∧ (inc = false → v ≤ (C : ℤ) ∧ v ≠ ig + 1))
    (i : ℕ) (hi : i < labels.data.length) :
    (Finset.range C).sum
        (fun c => bin.entry (insertAt (unflatten labels.shape i) 1 c)) =
      if inc = false ∧ labels.data.getD i 0 = 0 then 0 else 1 := by
  have hscat := expand_ok_scatter hexp
  obtain ⟨sh, ld⟩ := labels
  simp only [Tensor.dim] at hdim
  simp only [Tensor.wf] at hwf
  simp only at hscat hi ⊢
  have hvmem : ld.getD i 0 ∈ ld := by
    rw [List.getD_eq_getElem?_getD, List.getElem?_eq_getElem hi]
    exact List.getElem_mem _
  obtain ⟨hv0, hvig, hvinc, hvexc⟩ := hvals _ hvmem
  cases hdim with
  | inl h1 =>
    obtain ⟨n, hsh⟩ := List.length_eq_one.mp h1
    subst hsh
    have hwfn : ld.length = n := by simpa using hwf
    have hin : i < n := by omega
    have hfun : (fun c => Tensor.entry bin (insertAt (unflatten [n] i) 1 c)) =
        fun c => Tensor.entry bin [i, c] := by
      funext c
      have hunf : unflatten [n] i = [i] := by simp [unflatten]
      rw [hunf]
      rfl
    rw [hfun]
    cases inc with
    | true =>
      rw [if_pos rfl] at hscat
      have hsum := scatter_sum_dim1 ld n C ig bin hscat i hin
      have hval : validLab ig (ld.getD i 0) = true := by
        simp only [validLab, Bool.and_eq_true, decide_eq_true_eq]
        exact ⟨hv0, hvig⟩
      rw [hsum, if_pos ⟨hval, hvinc rfl⟩, if_neg (by simp)]
    | false =>
      rw [if_neg (by simp)] at hscat
      have hsum := scatter_sum_dim1 (ld.map (fun v => if v ≠ ig then v - 1 else v))
        n C ig bin hscat i hin
      rw [getD_map_lt _ _ _ _ 0 hi, if_pos hvig] at hsum
      by_cases hz : ld.getD i 0 = 0
      · have hnval : ¬(validLab ig (ld.getD i 0 - 1) = true ∧ ld.getD i 0 - 1 < (C : ℤ)) := by
          rintro ⟨hval, -⟩
          simp only [validLab, Bool.and_eq_true, decide_eq_true_eq] at hval
          omega
        rw [hsum, if_neg hnval, if_pos ⟨rfl, hz⟩]
      · obtain ⟨hle, hne1⟩ := hvexc rfl
        have hval : validLab ig (ld.getD i 0 - 1) = true := by
          simp only [validLab, Bool.and_eq_true, decide_eq_true_eq]
          omega
        rw [hsum, if_pos ⟨hval, by omega⟩, if_neg (fun hcc => hz hcc.2)]
  | inr h3 =>
    obtain ⟨n, h', w', hsh⟩ := List.length_eq_three.mp h3
    subst hsh
    have hip : i < ([n, h', w'] : List ℕ).prod := hwf ▸ hi
    cases inc with
    | true =>
      rw [if_pos rfl] at hscat
      have hsum := scatter_sum_dim3 ld n h' w' C ig bin hscat i hip
      have hval : validLab ig (ld.getD i 0) = true := by
        simp only [validLab, Bool.and_eq_true, decide_eq_true_eq]
        exact ⟨hv0, hvig⟩
      rw [hsum, if_pos ⟨hval, hvinc rfl⟩, if_neg (by simp)]
    | false =>
      rw [if_neg (by simp)] at hscat
      have hsum := scatter_sum_dim3 (ld.map (fun v => if v ≠ ig then v - 1 else v))
        n h' w' C ig bin hscat i hip
      rw [getD_map_lt _ _ _ _ 0 hi, if_pos hvig] at hsum
      by_cases hz : ld.getD i 0 = 0
      · have hnval : ¬(validLab ig (ld.getD i 0 - 1) = true ∧ ld.getD i 0 - 1 < (C : ℤ)) := by
          rintro ⟨hval, -⟩
          simp only [validLab, Bool.and_eq_true, decide_eq_true_eq] at hval
          omega
        rw [hsum, if_neg hnval, if_pos ⟨rfl, hz⟩]
      · obtain ⟨hle, hne1⟩ := hvexc rfl
        have hval : validLab ig (ld.getD i 0 - 1) = true := by
          simp only [validLab, Bool.and_eq_true, decide_eq_true_eq]
          omega
        rw [hsum, if_pos ⟨hval, by omega⟩, if_neg (fun hcc => hz hcc.2)]

/-- C6 counterexample: with ignore index 1, zero class excluded and three
classes, the label tensor [2] has no ignored position (2 is not 1) and an
in-range class value (the shifted value 1 is a valid class index), yet the
expanded binary labels are all zero: the decrement turns the label 2 into
the ignore index 1, so its position sums to 0 over the class axis even
though the original label was not 0 — refuting the claim as stated. -/
theorem claim_C6_counterexample :
    (_expand_onehot_labels ⟨[1], [2]⟩ none [1, 3] 1 false).2 =
      .ok ((⟨[1, 3], [0, 0, 0]⟩ : Tensor ℤ),
        (⟨[1, 3], [PF.val 0, PF.val 0, PF.val 0]⟩ : Tensor PF), none) ∧
    ((2 : ℤ) ≠ 1 ∧ (0 : ℤ) ≤ 2 ∧ (2 : ℤ) - 1 < 3 ∧ (2 : ℤ) ≠ 0) ∧
    (Finset.range 3).sum
        (fun c => (⟨[1, 3], [0, 0, 0]⟩ : Tensor ℤ).entry (insertAt (unflatten [1] 0) 1 c)) =
      0 ∧ (0 : ℤ) ≠ 1 :=
  ⟨rfl, by decide, by decide, by decide⟩

/-- C6 witness: the amended theorem applied to the label tensor [1] with
two classes, zero class included — the expanded binary labels sum to 1 at
the single position. -/
theorem claim_C6_witness :
    (Tensor.wf ⟨[1], [1]⟩ ∧ ((⟨[1], [1]⟩ : Tensor ℤ).dim = 1 ∨ (⟨[1], [1]⟩ : Tensor ℤ).dim = 3) ∧
      (∀ v ∈ (⟨[1], [1]⟩ : Tensor ℤ).data, 0 ≤ v ∧ v ≠ 255 ∧
        (true = true → v < (2 : ℤ)) ∧ (true = false → v ≤ (2 : ℤ) ∧ v ≠ 255 + 1))) ∧
    (Finset.range 2).sum
        (fun c => (⟨[1, 2], [0, 1]⟩ : Tensor ℤ).entry
          (insertAt (unflatten (⟨[1], [1]⟩ : Tensor ℤ).shape 0) 1 c)) =
      if (true = false ∧ (⟨[1], [1]⟩ : Tensor ℤ).data.getD 0 0 = 0) then 0 else 1 :=
  ⟨⟨rfl, by decide, by decide⟩,
    claim_C6_amended ⟨[1], [1]⟩ none 255 true 2 ⟨[1], [1]⟩ ⟨[1, 2], [0, 1]⟩
      ⟨[1, 2], [PF.val 1, PF.val 1]⟩ none rfl (by decide) rfl (by decide)
      0 (by decide)⟩

/-- C5 amended: for every label tensor with at least one value in the class
range and a nonnegative upper bound, `calculate_weights` returns exactly C
entries, each a rational at least 1, absent classes mapped to exactly 1 and
present classes to the histogram formula (with the class's share of the
in-range labels as `hist_norm`). -/
theorem claim_C5_amended (label : Tensor ℤ) (C : ℕ) (norm : Bool) (ub : ℚ)
    (hub : 0 ≤ ub)
    (hin : ∃ v ∈ label.data, 0 ≤ v ∧ v < (C : ℤ)) :
    ∃ w : Tensor PF, calculate_weights label C norm ub = .ok w ∧
      w.shape = [C] ∧ w.data.length = C ∧
      (∀ x ∈ w.data, ∃ q : ℚ, x = .val q ∧ 1 ≤ q) ∧
      (∀ c : ℕ, c < C → (c : ℤ) ∉ label.data → w.data.getD c default = .val 1) ∧
      (∀ c : ℕ, c < C → (c : ℤ) ∈ label.data → w.data.getD c default =
        .val (if norm then
          ub * (1 / ((classCount label c : ℚ) / (validTotal label C : ℚ) + 1 / 1000000)) + 1
        else ub * (1 - (classCount label c : ℚ) / (validTotal label C : ℚ)) + 1)) := by
  obtain ⟨v0, hv0mem, hv00, hv0C⟩ := hin
  have hC1 : 1 ≤ C := by omega
  have hT0 : validTotal label C ≠ 0 := by
    have hmem : v0 ∈ label.data.filter (fun v => decide (0 ≤ v) && decide (v < (C : ℤ))) :=
      List.mem_filter.mpr ⟨hv0mem, by simp [hv00, hv0C]⟩
    have := List.length_pos_of_mem hmem
    simp only [validTotal]
    omega
  by_cases hCone : C = 1
  · subst hCone
    have hv0z : v0 = 0 := by omega
    subst hv0z
    obtain ⟨d0, ds, hdata⟩ : ∃ d0 ds, label.data = d0 :: ds := by
      cases hld : label.data with
      | nil => rw [hld] at hv0mem; cases hv0mem
      | cons a as => exact ⟨a, as, rfl⟩
    have hL0 : label.data.length ≠ 0 := by rw [hdata]; simp
    have hh1 : histc label.data 1 0 (((1 : ℕ) : ℤ) - 1) = .ok [label.data.length] := by
      rw [show ((1 : ℕ) : ℤ) - 1 = 0 by norm_num, hdata]
      exact histc_one d0 ds
    have hcc : classCount label 0 = validTotal label 1 := by
      simp only [classCount, validTotal]
      congr 1
      refine List.filter_congr (fun a _ => ?_)
      by_cases ha : a = (0 : ℤ)
      · simp [ha]
      · have h1 : ¬(0 ≤ a ∧ a < (1 : ℤ)) := by omega
        rcases not_and_or.mp h1 with h | h
        · simp [ha, h]
        · simp [ha, h]
    have hcc0 : classCount label 0 ≠ 0 := by
      have hmem0 : (0 : ℤ) ∈ label.data.filter (fun v => v == (0 : ℤ)) :=
        List.mem_filter.mpr ⟨hv0mem, by simp⟩
      have := List.length_pos_of_mem hmem0
      simp only [classCount, Nat.cast_zero]
      omega
    obtain ⟨q, hq, hq1, hq0, hqpos⟩ := weight_entry label.data.length label.data.length
      norm ub hub hL0 (le_refl _)
    have hcw : calculate_weights label 1 norm ub = .ok ⟨[1], [PF.val q]⟩ := by
      simp only [calculate_weights, hh1, List.sum_cons, List.sum_nil, Nat.add_zero,
        List.map_cons, List.map_nil]
      rw [← hq]
    refine ⟨⟨[1], [PF.val q]⟩, hcw, rfl, rfl, ?_, ?_, ?_⟩
    · intro x hx
      rcases List.mem_singleton.mp hx with rfl
      exact ⟨q, rfl, hq1⟩
    · intro c hc habs
      interval_cases c
      exact absurd hv0mem habs
    · intro c hc hmem
      interval_cases c
      have hq' := hqpos hL0
      have hdd : ((label.data.length : ℚ)) / ((label.data.length : ℚ)) =
          (classCount label 0 : ℚ) / (validTotal label 1 : ℚ) := by
        rw [div_self (Nat.cast_ne_zero.mpr hL0), hcc,
          div_self (Nat.cast_ne_zero.mpr (hcc ▸ hcc0))]
      show List.getD [PF.val q] 0 default = _
      simp only [List.getD_cons_zero]
      rw [hq', hdd]
  · have hC2 : 2 ≤ C := by omega
    have hh := histc_classCounts label.data C hC2
    have hsum2 : ((List.range C).map
        (fun (c : ℕ) => (label.data.filter (fun v => v == (c : ℤ))).length)).sum =
        validTotal label C := by
      rw [validTotal]
      exact sum_classCount label.data C
    have hcw : calculate_weights label C norm ub = .ok ⟨[C],
        ((List.range C).map
          (fun (c : ℕ) => (label.data.filter (fun v => v == (c : ℤ))).length)).map
          (fun (h : ℕ) =>
            if norm then
              PF.val (if h ≠ 0 then 1 else 0) * PF.val ub *
                (PF.val 1 / (PF.div (PF.val (h : ℚ)) (PF.val (validTotal label C : ℚ)) +
                  PF.val (1 / 1000000))) + PF.val 1
            else
              PF.val (if h ≠ 0 then 1 else 0) * PF.val ub *
                (PF.val 1 - PF.div (PF.val (h : ℚ)) (PF.val (validTotal label C : ℚ))) +
                PF.val 1)⟩ := by
      simp only [calculate_weights, hh, hsum2]
    refine ⟨_, hcw, rfl, by simp, ?_, ?_, ?_⟩
    · intro x hx
      simp only [List.map_map, List.mem_map, List.mem_range] at hx
      obtain ⟨c, hc, hxc⟩ := hx
      obtain ⟨q, hq, hq1, -, -⟩ := weight_entry
        ((label.data.filter (fun v => v == (c : ℤ))).length) (validTotal label C)
        norm ub hub hT0 (classCount_le_validTotal label.data c C hc)
      refine ⟨q, ?_, hq1⟩
      rw [← hxc]
      exact hq
    · intro c hc habs
      have hcc0 : (label.data.filter (fun v => v == (c : ℤ))).length = 0 := by
        rw [List.length_eq_zero]
        refine List.filter_eq_nil_iff.mpr (fun a ha => ?_)
        simp only [beq_iff_eq, ne_eq, decide_eq_true_eq]
        intro hac
        exact habs (hac ▸ ha)
      obtain ⟨q, hq, -, hq0, -⟩ := weight_entry
        ((label.data.filter (fun v => v == (c : ℤ))).length) (validTotal label C)
        norm ub hub hT0 (classCount_le_validTotal label.data c C hc)
      show (((List.range C).map
          (fun (c : ℕ) => (label.data.filter (fun v => v == (c : ℤ))).length)).map _).getD
          c default = PF.val 1
      rw [getD_map_lt _ _ _ _ 0 (by simp [hc]), rangeMap_getD _ _ _ _ hc]
      exact hq.trans (congrArg PF.val (hq0 hcc0))
    · intro c hc hmem
      have hcc0 : (label.data.filter (fun v => v == (c : ℤ))).length ≠ 0 := by
        have hmemf : (c : ℤ) ∈ label.data.filter (fun v => v == (c : ℤ)) :=
          List.mem_filter.mpr ⟨hmem, by simp⟩
        have := List.length_pos_of_mem hmemf
        omega
      obtain ⟨q, hq, -, -, hqpos⟩ := weight_entry
        ((label.data.filter (fun v => v == (c : ℤ))).length) (validTotal label C)
        norm ub hub hT0 (classCount_le_validTotal label.data c C hc)
      show (((List.range C).map
          (fun (c : ℕ) => (label.data.filter (fun v => v == (c : ℤ))).length)).map _).getD
          c default = _
      rw [getD_map_lt _ _ _ _ 0 (by simp [hc]), rangeMap_getD _ _ _ _ hc]
      exact hq.trans (congrArg PF.val (hqpos hcc0))

/-- C5 witness: the amended theorem applied to the label tensor [0, 1] with
two classes, no normalization and upper bound 1. -/
theorem claim_C5_witness :
    (0 ≤ (1 : ℚ)) ∧
    (∃ v ∈ (⟨[2], [0, 1]⟩ : Tensor ℤ).data, 0 ≤ v ∧ v < ((2 : ℕ) : ℤ)) ∧
    (∃ w : Tensor PF, calculate_weights ⟨[2], [0, 1]⟩ 2 false 1 = .ok w ∧
      w.shape = [2] ∧ w.data.length = 2 ∧
      (∀ x ∈ w.data, ∃ q : ℚ, x = .val q ∧ 1 ≤ q) ∧
      (∀ c : ℕ, c < 2 → (c : ℤ) ∉ (⟨[2], [0, 1]⟩ : Tensor ℤ).data →
        w.data.getD c default = .val 1) ∧
      (∀ c : ℕ, c < 2 → (c : ℤ) ∈ (⟨[2], [0, 1]⟩ : Tensor ℤ).data →
        w.data.getD c default =
        .val (if false then
          1 * (1 / ((classCount ⟨[2], [0, 1]⟩ c : ℚ) / (validTotal ⟨[2], [0, 1]⟩ 2 : ℚ) +
            1 / 1000000)) + 1
        else 1 * (1 - (classCount ⟨[2], [0, 1]⟩ c : ℚ) / (validTotal ⟨[2], [0, 1]⟩ 2 : ℚ)) + 1))) :=
  ⟨zero_le_one, by decide,
    claim_C5_amended ⟨[2], [0, 1]⟩ 2 false 1 zero_le_one (by decide)⟩

end Mmseg
